import Mathlib

/-!
Verification of the npm-versions-tracker statistics collector
(`src/merge-alex-stats.ts` and the variant script in `src/unnamed/part_001`).

Modelling conventions (shallow embedding of the TypeScript source):

* JavaScript numbers that hold epoch milliseconds, epoch days and download
  counts are modelled as `Int` (all arithmetic in the source stays integral).
* A JavaScript object used as a string-keyed record is modelled as an
  association list `List (String × α)` in key-insertion order; property
  creation appends the key at the end, exactly as JS object key order works.
  JS objects cannot hold duplicate keys, so the lists coming from the source
  have pairwise distinct keys.
* `Array.prototype.findIndex` and `Array.prototype.splice` (single-element
  insertion) are modelled by `findIndexJS` and `splice`, including the
  clamping behaviour of `splice` for negative start indices.
* Truthiness tests of the source are translated literally: `!someRecord[k]`
  on a numeric record is "absent or equal to 0"; on a record of arrays it is
  "absent" (a JS array, even empty, is truthy).
* Date identifiers (seed file names such as "2024-01-07.json") are modelled
  by the epoch-millisecond value that `new Date(name.split(".")[0])`
  produces; `daysFromCivil` is the standard civil-calendar conversion that
  underlies the JS `Date` object.  Sorting of ISO `YYYY-MM-DD` strings is
  lexicographic in the source, which for four-digit years coincides with
  chronological order, so it is modelled as numeric sorting.
* The deployment environment of the script (a GitHub Actions runner, see the
  workflow file) runs with TZ=UTC, so the local-time accessors used by
  `onlyDay` agree with the UTC accessors; the model fixes TZ=UTC.
-/

namespace NpmTracker

/-! ## JavaScript primitive models -/

/-- JS `Array.prototype.findIndex` helper: index of the first element
satisfying `p`, as an `Option Nat`. -/
def findIdxAux (p : Int → Bool) : List Int → Option Nat
  | [] => none
  | x :: xs => if p x then some 0 else (findIdxAux p xs).map (· + 1)

/-- JS `Array.prototype.findIndex`: the index of the first element satisfying
`p`, or `-1` when no element does. -/
def findIndexJS (p : Int → Bool) (l : List Int) : Int :=
  match findIdxAux p l with
  | some n => (n : Int)
  | none => -1

/-- Insert `x` into `l` so that it ends up at position `n` (clamped to the
length of `l`). -/
def insertAt (x : α) : Nat → List α → List α
  | 0, l => x :: l
  | _ + 1, [] => [x]
  | n + 1, y :: ys => y :: insertAt x n ys

/-- The actual start index used by JS `Array.prototype.splice`: negative
starts count from the end and clamp at `0`, nonnegative starts clamp at the
length. -/
def spliceIdx (len : Nat) (start : Int) : Nat :=
  if start < 0 then ((len : Int) + start).toNat else min start.toNat len

/-- JS `l.splice(start, 0, x)` (single-element insertion, returning the
mutated array). -/
def splice (l : List α) (start : Int) (x : α) : List α :=
  insertAt x (spliceIdx l.length start) l

/-- Lookup in a JS object modelled as an association list (property access
`obj[k]`). -/
def lookupA {κ α : Type} [DecidableEq κ] (k : κ) : List (κ × α) → Option α
  | [] => none
  | e :: rest => if e.1 = k then some e.2 else lookupA k rest

/-- Replace the value stored at key `k` by `f` of it (JS in-place property
mutation); the list is unchanged when the key is absent. -/
def updateEntry (k : String) (f : List Int → List Int) :
    List (String × List Int) → List (String × List Int)
  | [] => []
  | e :: rest => if e.1 = k then (e.1, f e.2) :: rest else e :: updateEntry k f rest

/-! ## The historical series data model -/

/-- `HistoricalData` of the source: the persisted per-package series. -/
structure HistoricalData where
  package : String
  timestamps : List Int
  downloads : List (String × List Int)
  deriving Repr, DecidableEq

/-! ## `updateHistoricalData` (the Historical Merge Engine) -/

/-- First loop of `updateHistoricalData`: for every `[version, count]` of
`Object.entries(newDownloads)`, either create a zero-filled array of the
post-insertion length (when the version key is absent — a JS array value is
always truthy) or splice the count into the existing array. -/
def addNewCounts (insertIndex : Int) (tsLen : Nat) :
    List (String × Int) → List (String × List Int) → List (String × List Int)
  | [], dl => dl
  | (version, count) :: rest, dl =>
    match lookupA version dl with
    | none => addNewCounts insertIndex tsLen rest (dl ++ [(version, List.replicate tsLen 0)])
    | some _ =>
        addNewCounts insertIndex tsLen rest
          (updateEntry version (fun a => splice a insertIndex count) dl)

/-- Second loop of `updateHistoricalData`: for every version key of the
downloads record, splice in a `0` when `!newDownloads[version]` — i.e. when
the key is absent from `newDownloads` or its count is `0`. -/
def zeroFillAbsent (newDownloads : List (String × Int)) (insertIndex : Int)
    (dl : List (String × List Int)) : List (String × List Int) :=
  dl.map (fun e =>
    (e.1,
      match lookupA e.1 newDownloads with
      | none => splice e.2 insertIndex 0
      | some c => if c = 0 then splice e.2 insertIndex 0 else e.2))

/-- The source's `insertIndex`:
`existingData.timestamps.findIndex((value) => value >= timestamp)`. -/
def insertIndexOf (timestamp : Int) (timestamps : List Int) : Int :=
  findIndexJS (fun value => decide (timestamp ≤ value)) timestamps

/-- `updateHistoricalData(newDownloads, timestamp, existingData)` of the
source, as a pure function returning the mutated series. -/
def updateHistoricalData (newDownloads : List (String × Int)) (timestamp : Int)
    (existingData : HistoricalData) : HistoricalData :=
  if 0 ≤ insertIndexOf timestamp existingData.timestamps ∧
      existingData.timestamps[(insertIndexOf timestamp existingData.timestamps).toNat]?
        = some timestamp then
    existingData
  else
    { package := existingData.package
      timestamps :=
        splice existingData.timestamps (insertIndexOf timestamp existingData.timestamps) timestamp
      downloads :=
        zeroFillAbsent newDownloads (insertIndexOf timestamp existingData.timestamps)
          (addNewCounts (insertIndexOf timestamp existingData.timestamps)
            (splice existingData.timestamps (insertIndexOf timestamp existingData.timestamps)
              timestamp).length
            newDownloads existingData.downloads) }

/-! ## Week bucketing (`getWeekKey`, `batchDatesByWeek` of the week-based
script variant)

A date identifier (seed file name) is represented by the epoch-millisecond
value of `new Date(name.split(".")[0])`; a week key (an ISO `YYYY-MM-DD`
string in the source) is represented by its epoch-day number, and the
lexicographic string sort of the source is modelled as the numeric sort,
which agrees with it on zero-padded ISO dates. -/

def DAY_MILLISECONDS : Int := 24 * 60 * 60 * 1000

/-- JS `date.getUTCDay()` for an epoch-millisecond value: 0 = Sunday
(1970-01-01 was a Thursday, day 4). -/
def getUTCDay (ms : Int) : Int := (ms / DAY_MILLISECONDS + 4) % 7

/-- The source's `onlyDay`: truncate a timestamp to the start of its day
(TZ=UTC, where the local accessors used by the source agree with UTC). -/
def onlyDayStartMs (ms : Int) : Int := ms / DAY_MILLISECONDS * DAY_MILLISECONDS

/-- `getWeekKey`: subtract the UTC day-of-week from the date, truncate to
midnight, and return the day (standing for the `YYYY-MM-DD` part of the ISO
string). -/
def getWeekKey (ms : Int) : Int :=
  onlyDayStartMs (ms - getUTCDay ms * DAY_MILLISECONDS) / DAY_MILLISECONDS

/-- Epoch day number of the proleptic Gregorian date `y-m-d` (the standard
civil-from-days conversion that underlies the JS `Date` object). -/
def daysFromCivil (y m d : Int) : Int :=
  let y2 := if m ≤ 2 then y - 1 else y
  let era := y2.fdiv 400
  let yoe := y2 - era * 400
  let mp := (m + 9) % 12
  let doy := (153 * mp + 2) / 5 + d - 1
  let doe := yoe * 365 + yoe / 4 - yoe / 100 + doy
  era * 146097 + doe - 719468

/-- Epoch milliseconds of midnight UTC on `y-m-d` (what
`new Date("y-m-d").getTime()` returns). -/
def dateMs (y m d : Int) : Int := daysFromCivil y m d * DAY_MILLISECONDS

/-- One step of the grouping loop of `batchDatesByWeek`: push `date` onto
the bucket of `weekKey`, creating the bucket at the end (JS `Map` preserves
insertion order). -/
def addToBucket (weekKey date : Int) : List (Int × List Int) → List (Int × List Int)
  | [] => [(weekKey, [date])]
  | e :: rest =>
      if e.1 = weekKey then (e.1, e.2 ++ [date]) :: rest
      else e :: addToBucket weekKey date rest

/-- `batchDatesByWeek`: group the dates by week key, then sort the dates
within each bucket ascending. -/
def batchDatesByWeek (dates : List Int) : List (Int × List Int) :=
  (dates.foldl (fun m date => addToBucket (getWeekKey date) date m) []).map
    (fun e => (e.1, List.insertionSort (· ≤ ·) e.2))

/-! ## The per-package orchestrator (`processPackage` of the week-based
script variant)

`readSeedData` is modelled by an environment `env : Int → Option Snapshot`
(`none` is the missing-file sentinel).  The `downloads` field is an
`Option` so that the source's truthiness guard
`data && data[packageName] && data[packageName].downloads` is translated
literally. -/

structure NpmResponse where
  package : String
  downloads : Option (List (String × Int))
  deriving Repr

/-- A parsed seed file: package name to raw download response. -/
def Snapshot : Type := List (String × NpmResponse)

/-- The download data the source's guard extracts for one package on one
date, when all three truthiness checks pass. -/
def extractDownloads (env : Int → Option Snapshot) (packageName : String) (date : Int) :
    Option (List (String × Int)) :=
  match env date with
  | none => none
  | some data =>
    match lookupA packageName data with
    | none => none
    | some resp => resp.downloads

/-- The inner loop over the dates of one week: return the first date for
which the package has download data (the loop `break`s there), or `none`
when the whole week has no data. -/
def firstDateWithData (env : Int → Option Snapshot) (packageName : String) :
    List Int → Option Int
  | [] => none
  | date :: rest =>
    if (extractDownloads env packageName date).isSome then some date
    else firstDateWithData env packageName rest

/-- Merging the observation of one selected date into the series. -/
def mergeStep (env : Int → Option Snapshot) (packageName : String)
    (s : HistoricalData) (date : Int) : HistoricalData :=
  updateHistoricalData ((extractDownloads env packageName date).getD []) date s

/-- The outer loop of `processPackage` over the sorted week keys. -/
def processWeeks (env : Int → Option Snapshot) (packageName : String)
    (weekMap : List (Int × List Int)) : List Int → HistoricalData → HistoricalData
  | [], s => s
  | weekKey :: rest, s =>
    match firstDateWithData env packageName ((lookupA weekKey weekMap).getD []) with
    | none => processWeeks env packageName weekMap rest s
    | some date =>
        processWeeks env packageName weekMap rest (mergeStep env packageName s date)

/-- The merge phase of `processPackage`: bucket the seed dates by week and
process the week keys in sorted order. -/
def processPackageWeeks (env : Int → Option Snapshot) (packageName : String)
    (dates : List Int) (s : HistoricalData) : HistoricalData :=
  processWeeks env packageName (batchDatesByWeek dates)
    (List.insertionSort (· ≤ ·) ((batchDatesByWeek dates).map Prod.fst)) s

/-- Spec-side selection (from the spec's words): for each week in
chronological order, the first date of the ascending-sorted week bucket for
which the package has download data; weeks without data are skipped. -/
def specSelectedDates (env : Int → Option Snapshot) (packageName : String)
    (dates : List Int) : List Int :=
  (List.insertionSort (· ≤ ·) ((batchDatesByWeek dates).map Prod.fst)).filterMap
    (fun weekKey =>
      firstDateWithData env packageName ((lookupA weekKey (batchDatesByWeek dates)).getD []))

/-! ## The batch runner (`main`)

`processPackage`'s outcome for each package is abstracted by an environment
`outcome : String → Except String Unit`; the `try`/`catch` inside the
`Promise.allSettled` callback is the `match` of `runPackage`. -/

def PACKAGES : List String :=
  ["@mui/codemod", "@mui/core-downloads-tracker", "@mui/icons-material", "@mui/lab",
   "@mui/material-nextjs", "@mui/material", "@mui/material-pigment-css",
   "@mui/private-theming", "@mui/styled-engine", "@mui/styled-engine-sc", "@mui/system",
   "@mui/types", "@mui/utils", "@mui/x-data-grid", "@mui/x-data-grid-generator",
   "@mui/x-data-grid-pro", "@mui/x-data-grid-premium", "@mui/x-date-pickers",
   "@mui/x-date-pickers-pro", "@mui/x-charts", "@mui/x-charts-pro", "@mui/x-charts-premium",
   "@mui/x-charts-vendor", "@mui/x-tree-view", "@mui/x-tree-view-pro", "@mui/x-license",
   "@mui/x-internals", "@mui/x-telemetry", "@base-ui-components/react", "react",
   "@emotion/react"]

structure PackageResult where
  pkg : String
  success : Bool
  error : Option String
  deriving Repr, DecidableEq

/-- The `async` callback of `main`: run one package, catching its failure
and recording it; this function is total — no error escapes it. -/
def runPackage (outcome : String → Except String Unit) (packageName : String) :
    PackageResult :=
  match outcome packageName with
  | Except.ok _ => { pkg := packageName, success := true, error := none }
  | Except.error e => { pkg := packageName, success := false, error := some e }

/-- The settled results of `main` (every promise fulfills, since the
callback catches). -/
def mainResults (outcome : String → Except String Unit) : List PackageResult :=
  PACKAGES.map (runPackage outcome)

/-- `successful` of the summary report. -/
def successfulCount (outcome : String → Except String Unit) : Nat :=
  (mainResults outcome).countP (fun r => r.success)

/-- `failed` of the summary report: `PACKAGES.length - successful`. -/
def failedCount (outcome : String → Except String Unit) : Nat :=
  PACKAGES.length - successfulCount outcome

/-! ## Basic facts about the primitive models -/

theorem insertAt_length (x : α) : ∀ (n : Nat) (l : List α), (insertAt x n l).length = l.length + 1
  | 0, _ => rfl
  | _ + 1, [] => rfl
  | n + 1, _ :: ys => by simp [insertAt, insertAt_length x n ys]

theorem findIdxAux_lt_length {p : Int → Bool} :
    ∀ {l : List Int} {n : Nat}, findIdxAux p l = some n → n < l.length := by
  intro l
  induction l with
  | nil => intro n h; exact absurd h (by simp [findIdxAux])
  | cons x xs ih =>
    intro n h
    rw [findIdxAux] at h
    by_cases hx : p x
    · rw [if_pos hx] at h
      injection h with h
      subst h
      simp only [List.length_cons]
      omega
    · rw [if_neg hx] at h
      rcases ho : findIdxAux p xs with _ | m
      · rw [ho] at h; exact absurd h (by simp)
      · rw [ho, Option.map_some'] at h
        injection h with h
        subst h
        have := ih ho
        simp only [List.length_cons]
        omega

theorem findIdxAux_insertAt_self {p : Int → Bool} {t : Int} (hpt : p t = true) :
    ∀ {l : List Int} {n : Nat}, findIdxAux p l = some n →
      findIdxAux p (insertAt t n l) = some n ∧ (insertAt t n l)[n]? = some t := by
  intro l
  induction l with
  | nil => intro n h; exact absurd h (by simp [findIdxAux])
  | cons x xs ih =>
    intro n h
    rw [findIdxAux] at h
    by_cases hx : p x
    · rw [if_pos hx] at h
      injection h with h
      subst h
      refine ⟨?_, rfl⟩
      rw [show insertAt t 0 (x :: xs) = t :: x :: xs from rfl, findIdxAux, if_pos hpt]
    · rw [if_neg hx] at h
      rcases ho : findIdxAux p xs with _ | m
      · rw [ho] at h; exact absurd h (by simp)
      · rw [ho, Option.map_some'] at h
        injection h with h
        subst h
        obtain ⟨ih1, ih2⟩ := ih ho
        refine ⟨?_, ?_⟩
        · show findIdxAux p (x :: insertAt t m xs) = some (m + 1)
          rw [findIdxAux, if_neg hx, ih1, Option.map_some']
        · show (x :: insertAt t m xs)[m + 1]? = some t
          simpa using ih2

theorem findIdxAux_insertAt_last {p : Int → Bool} {t : Int} (hpt : p t = true) :
    ∀ {l : List Int}, findIdxAux p l = none → l ≠ [] →
      findIdxAux p (insertAt t (l.length - 1) l) = some (l.length - 1) ∧
        (insertAt t (l.length - 1) l)[l.length - 1]? = some t := by
  intro l
  induction l with
  | nil => intro _ h; exact absurd rfl h
  | cons x xs ih =>
    intro h _
    rw [findIdxAux] at h
    by_cases hx : p x
    · rw [if_pos hx] at h; exact absurd h (by simp)
    · rw [if_neg hx] at h
      have hxs : findIdxAux p xs = none := by
        rcases ho : findIdxAux p xs with _ | m
        · rfl
        · rw [ho, Option.map_some'] at h; exact absurd h (by simp)
      cases xs with
      | nil =>
        refine ⟨?_, rfl⟩
        rw [show insertAt t ((([x] : List Int)).length - 1) [x] = t :: [x] from rfl, findIdxAux,
          if_pos hpt]
        rfl
      | cons y ys =>
        obtain ⟨ih1, ih2⟩ := ih hxs (by simp)
        have hlen : (x :: y :: ys : List Int).length - 1 = ((y :: ys : List Int).length - 1) + 1 := by
          simp
        rw [hlen]
        refine ⟨?_, ?_⟩
        · show findIdxAux p (x :: insertAt t ((y :: ys : List Int).length - 1) (y :: ys))
              = some (((y :: ys : List Int).length - 1) + 1)
          rw [findIdxAux, if_neg hx, ih1, Option.map_some']
        · show (x :: insertAt t ((y :: ys : List Int).length - 1) (y :: ys))[
              ((y :: ys : List Int).length - 1) + 1]? = some t
          simpa using ih2

theorem spliceIdx_neg_one (len : Nat) : spliceIdx len (-1) = len - 1 := by
  rw [spliceIdx, if_pos (by norm_num)]
  omega

/-- After an actual insertion of `timestamp` by `updateHistoricalData`, the
skip condition of the source holds for the new timestamps array: the first
index holding a value `>= timestamp` holds exactly `timestamp`. -/
theorem skip_cond_splice (t : Int) (l : List Int) :
    0 ≤ insertIndexOf t (splice l (insertIndexOf t l) t) ∧
      (splice l (insertIndexOf t l) t)[(insertIndexOf t
        (splice l (insertIndexOf t l) t)).toNat]? = some t := by
  have hpt : (fun value => decide (t ≤ value)) t = true := by simp
  rcases hfind : findIdxAux (fun value => decide (t ≤ value)) l with _ | n
  · -- findIndex returned -1: splice inserts at position length - 1
    have hidx : insertIndexOf t l = -1 := by
      simp [insertIndexOf, findIndexJS, hfind]
    cases l with
    | nil =>
      have hfi : findIdxAux (fun value => decide (t ≤ value)) [t] = some 0 := by
        rw [findIdxAux, if_pos hpt]
      rw [hidx, show splice ([] : List Int) (-1) t = [t] from rfl,
        show insertIndexOf t [t] = 0 from by simp [insertIndexOf, findIndexJS, hfi]]
      exact ⟨le_refl 0, rfl⟩
    | cons x xs =>
      have h2 : splice (x :: xs) (-1) t = insertAt t xs.length (x :: xs) := by
        rw [splice, spliceIdx_neg_one]
        simp
      obtain ⟨h1, hg⟩ := findIdxAux_insertAt_last hpt hfind (by simp)
      simp only [List.length_cons, Nat.add_sub_cancel] at h1 hg
      rw [hidx, h2]
      have hidx2 : insertIndexOf t (insertAt t xs.length (x :: xs)) = (xs.length : Int) := by
        simp [insertIndexOf, findIndexJS, h1]
      rw [hidx2]
      exact ⟨Int.natCast_nonneg _, by rw [Int.toNat_natCast]; exact hg⟩
  · -- findIndex returned a valid index n < length
    have hidx : insertIndexOf t l = (n : Int) := by
      simp [insertIndexOf, findIndexJS, hfind]
    have hlt : n < l.length := findIdxAux_lt_length hfind
    have h2 : splice l (n : Int) t = insertAt t n l := by
      rw [splice, spliceIdx, if_neg (by omega), Int.toNat_natCast,
        min_eq_left (Nat.le_of_lt hlt)]
    obtain ⟨h1, hg⟩ := findIdxAux_insertAt_self hpt hfind
    rw [hidx, h2]
    have hidx2 : insertIndexOf t (insertAt t n l) = (n : Int) := by
      simp [insertIndexOf, findIndexJS, h1]
    rw [hidx2]
    exact ⟨Int.natCast_nonneg _, by rw [Int.toNat_natCast]; exact hg⟩

theorem updateHistoricalData_skip {newDownloads : List (String × Int)} {timestamp : Int}
    {s : HistoricalData}
    (h : 0 ≤ insertIndexOf timestamp s.timestamps ∧
      s.timestamps[(insertIndexOf timestamp s.timestamps).toNat]? = some timestamp) :
    updateHistoricalData newDownloads timestamp s = s := by
  rw [updateHistoricalData, if_pos h]

theorem updateHistoricalData_insert {newDownloads : List (String × Int)} {timestamp : Int}
    {s : HistoricalData}
    (h : ¬(0 ≤ insertIndexOf timestamp s.timestamps ∧
      s.timestamps[(insertIndexOf timestamp s.timestamps).toNat]? = some timestamp)) :
    updateHistoricalData newDownloads timestamp s =
      { package := s.package
        timestamps := splice s.timestamps (insertIndexOf timestamp s.timestamps) timestamp
        downloads :=
          zeroFillAbsent newDownloads (insertIndexOf timestamp s.timestamps)
            (addNewCounts (insertIndexOf timestamp s.timestamps)
              (splice s.timestamps (insertIndexOf timestamp s.timestamps) timestamp).length
              newDownloads s.downloads) } := by
  rw [updateHistoricalData, if_neg h]

/-! ## Frame facts: `updateHistoricalData` only inserts, never deletes -/

theorem sublist_insertAt (x : α) : ∀ (n : Nat) (l : List α), l.Sublist (insertAt x n l)
  | 0, l => List.sublist_cons_self x l
  | _ + 1, [] => List.nil_sublist [x]
  | n + 1, y :: ys => List.Sublist.cons₂ y (sublist_insertAt x n ys)

theorem sublist_splice (l : List α) (start : Int) (x : α) : l.Sublist (splice l start x) :=
  sublist_insertAt x (spliceIdx l.length start) l

theorem lookupA_append {κ α : Type} [DecidableEq κ] {v : κ} {l₁ : List (κ × α)} {a : α}
    (l₂ : List (κ × α)) (h : lookupA v l₁ = some a) : lookupA v (l₁ ++ l₂) = some a := by
  induction l₁ with
  | nil => exact absurd h (by simp [lookupA])
  | cons e rest ih =>
    rw [lookupA] at h
    by_cases he : e.1 = v
    · rw [if_pos he] at h
      rw [List.cons_append, lookupA, if_pos he]
      exact h
    · rw [if_neg he] at h
      rw [List.cons_append, lookupA, if_neg he]
      exact ih h

theorem lookupA_updateEntry (v k : String) (f : List Int → List Int) :
    ∀ dl : List (String × List Int),
      lookupA v (updateEntry k f dl) =
        if v = k then (lookupA v dl).map f else lookupA v dl := by
  intro dl
  induction dl with
  | nil => simp [updateEntry, lookupA]
  | cons e rest ih =>
    rw [updateEntry]
    by_cases hek : e.1 = k
    · rw [if_pos hek, lookupA, lookupA]
      by_cases hev : e.1 = v
      · rw [if_pos hev, if_pos hev, if_pos (hev ▸ hek : v = k), Option.map_some']
      · rw [if_neg hev, if_neg hev]
        by_cases hvk : v = k
        · exact absurd (hvk ▸ hek : e.1 = v) hev
        · rw [if_neg hvk]
    · rw [if_neg hek, lookupA, lookupA]
      by_cases hev : e.1 = v
      · rw [if_pos hev, if_pos hev]
        by_cases hvk : v = k
        · exact absurd (hvk ▸ hev : e.1 = k) hek
        · rw [if_neg hvk]
      · rw [if_neg hev, if_neg hev]
        exact ih

theorem addNewCounts_lookup (insertIndex : Int) (tsLen : Nat) :
    ∀ (entries : List (String × Int)) (dl : List (String × List Int)) (v : String)
      (a : List Int), lookupA v dl = some a →
      ∃ a', lookupA v (addNewCounts insertIndex tsLen entries dl) = some a' ∧ a.Sublist a' := by
  intro entries
  induction entries with
  | nil => intro dl v a h; exact ⟨a, h, List.Sublist.refl a⟩
  | cons e rest ih =>
    intro dl v a h
    rw [addNewCounts]
    rcases hw : lookupA e.1 dl with _ | b
    · exact ih _ v a (lookupA_append _ h)
    · have hup : lookupA v (updateEntry e.1 (fun arr => splice arr insertIndex e.2) dl) =
          if v = e.1 then (lookupA v dl).map (fun arr => splice arr insertIndex e.2)
          else lookupA v dl := lookupA_updateEntry v e.1 _ dl
      by_cases hv : v = e.1
      · rw [if_pos hv, h, Option.map_some'] at hup
        obtain ⟨a', ha', hsub⟩ := ih _ v _ hup
        exact ⟨a', ha', (sublist_splice a insertIndex e.2).trans hsub⟩
      · rw [if_neg hv] at hup
        exact ih _ v a (hup.trans h)

theorem lookupA_zeroFillAbsent (newDownloads : List (String × Int)) (insertIndex : Int)
    (v : String) : ∀ dl : List (String × List Int),
      lookupA v (zeroFillAbsent newDownloads insertIndex dl) =
        (lookupA v dl).map (fun a =>
          match lookupA v newDownloads with
          | none => splice a insertIndex 0
          | some c => if c = 0 then splice a insertIndex 0 else a) := by
  intro dl
  induction dl with
  | nil => simp [zeroFillAbsent, lookupA]
  | cons e rest ih =>
    rw [zeroFillAbsent, List.map_cons, lookupA, lookupA]
    by_cases hev : e.1 = v
    · rw [if_pos hev, if_pos hev, Option.map_some', hev]
    · rw [if_neg hev, if_neg hev]
      exact ih

/-! ## Facts about the orchestrator -/

theorem processWeeks_eq_foldl (env : Int → Option Snapshot) (packageName : String)
    (weekMap : List (Int × List Int)) :
    ∀ (keys : List Int) (s : HistoricalData),
      processWeeks env packageName weekMap keys s =
        (keys.filterMap (fun weekKey =>
            firstDateWithData env packageName ((lookupA weekKey weekMap).getD []))).foldl
          (mergeStep env packageName) s := by
  intro keys
  induction keys with
  | nil => intro s; rfl
  | cons weekKey rest ih =>
    intro s
    rw [processWeeks, List.filterMap_cons]
    rcases hfd : firstDateWithData env packageName ((lookupA weekKey weekMap).getD []) with _ | d
    · exact ih s
    · rw [List.foldl_cons]
      exact ih (mergeStep env packageName s d)

theorem firstDateWithData_eq_find (env : Int → Option Snapshot) (packageName : String) :
    ∀ l : List Int, firstDateWithData env packageName l =
      l.find? (fun date => (extractDownloads env packageName date).isSome) := by
  intro l
  induction l with
  | nil => rfl
  | cons date rest ih =>
    by_cases hd : (extractDownloads env packageName date).isSome
    · rw [firstDateWithData, if_pos hd]
      simp [List.find?_cons, hd]
    · rw [firstDateWithData, if_neg hd]
      simp only [Bool.not_eq_true] at hd
      simp [List.find?_cons, hd, ih]

theorem mem_keys_addToBucket {x weekKey date : Int} :
    ∀ {m : List (Int × List Int)}, x ∈ (addToBucket weekKey date m).map Prod.fst →
      x ∈ m.map Prod.fst ∨ x = weekKey := by
  intro m
  induction m with
  | nil => intro h; simp [addToBucket] at h; exact Or.inr h
  | cons e rest ih =>
    intro h
    rw [addToBucket] at h
    by_cases he : e.1 = weekKey
    · rw [if_pos he] at h
      simp only [List.map_cons, List.mem_cons] at h
      exact Or.inl (by simpa using h)
    · rw [if_neg he] at h
      simp only [List.map_cons, List.mem_cons] at h
      rcases h with h | h
      · exact Or.inl (by simp [h])
      · rcases ih h with h' | h'
        · exact Or.inl (by simp [h'])
        · exact Or.inr h'

theorem nodup_keys_addToBucket {weekKey date : Int} :
    ∀ {m : List (Int × List Int)}, (m.map Prod.fst).Nodup →
      ((addToBucket weekKey date m).map Prod.fst).Nodup := by
  intro m
  induction m with
  | nil => intro _; simp [addToBucket]
  | cons e rest ih =>
    intro h
    rw [List.map_cons, List.nodup_cons] at h
    rw [addToBucket]
    by_cases he : e.1 = weekKey
    · rw [if_pos he]
      rw [List.map_cons, List.nodup_cons]
      exact h
    · rw [if_neg he]
      rw [List.map_cons, List.nodup_cons]
      refine ⟨fun hmem => ?_, ih h.2⟩
      rcases mem_keys_addToBucket hmem with h' | h'
      · exact h.1 h'
      · exact he h'

theorem nodup_keys_groupLoop :
    ∀ (dates : List Int) (m : List (Int × List Int)), (m.map Prod.fst).Nodup →
      (((dates.foldl (fun acc date => addToBucket (getWeekKey date) date acc) m)).map
        Prod.fst).Nodup := by
  intro dates
  induction dates with
  | nil => intro m h; exact h
  | cons date rest ih =>
    intro m h
    rw [List.foldl_cons]
    exact ih _ (nodup_keys_addToBucket h)

theorem keys_map_sortBuckets (m : List (Int × List Int)) :
    ((m.map (fun e => (e.1, List.insertionSort (· ≤ ·) e.2))).map Prod.fst) =
      m.map Prod.fst := by
  induction m with
  | nil => rfl
  | cons e rest ih => simp [ih]

theorem lookupA_map_value {κ α β : Type} [DecidableEq κ] (k : κ) (g : α → β) :
    ∀ m : List (κ × α),
      lookupA k (m.map (fun e => (e.1, g e.2))) = (lookupA k m).map g := by
  intro m
  induction m with
  | nil => rfl
  | cons e rest ih =>
    rw [List.map_cons, lookupA, lookupA]
    by_cases he : e.1 = k
    · rw [if_pos he, if_pos he, Option.map_some']
    · rw [if_neg he, if_neg he]
      exact ih

/-! ## Facts about the week key computation -/

theorem getWeekKey_eq (ms : Int) :
    getWeekKey ms = ms / DAY_MILLISECONDS - getUTCDay ms := by
  have hday : (DAY_MILLISECONDS : Int) ≠ 0 := by norm_num [DAY_MILLISECONDS]
  rw [getWeekKey, onlyDayStartMs, Int.mul_ediv_cancel _ hday, sub_eq_add_neg,
    ← neg_mul, Int.add_mul_ediv_right _ _ hday, ← sub_eq_add_neg]

theorem sublist_zeroFillFun (newDownloads : List (String × Int)) (insertIndex : Int)
    (v : String) (b : List Int) :
    b.Sublist (match lookupA v newDownloads with
      | none => splice b insertIndex 0
      | some c => if c = 0 then splice b insertIndex 0 else b) := by
  rcases lookupA v newDownloads with _ | c
  · exact sublist_splice b insertIndex 0
  · show b.Sublist (if c = 0 then splice b insertIndex 0 else b)
    by_cases hc : c = 0
    · rw [if_pos hc]
      exact sublist_splice b insertIndex 0
    · rw [if_neg hc]

/-! ## The claims -/

/-- Claim C1: the merge uses as insertion position the first index whose
timestamp is `>= timestamp`, and the spec further asserts that when every
existing timestamp is strictly smaller the new timestamp is inserted at the
end.  The second part fails on the code: `findIndex` returns `-1` and
`splice(-1, 0, ts)` inserts *before the last element*.  Merging timestamp
200 into the series with timestamps `[100]` yields `[200, 100]`, not the
`[100, 200]` the claim requires. -/
theorem updateHistoricalData_all_smaller_not_appended :
    (updateHistoricalData [] 200
        { package := "p", timestamps := [100], downloads := [] }).timestamps = [200, 100] ∧
    (updateHistoricalData [] 200
        { package := "p", timestamps := [100], downloads := [] }).timestamps ≠ [100, 200] := by
  decide

/-- Claim C2: strictly-increasing timestamps are claimed to be an invariant
of every merge call.  This fails on the code for the same `splice(-1)`
reason as C1: the sorted series `[100]` becomes the unsorted `[200, 100]`
after merging timestamp 200. -/
theorem updateHistoricalData_breaks_sorted_order :
    List.Sorted (· < ·) [(100 : Int)] ∧
    ¬ List.Sorted (· < ·)
        (updateHistoricalData [] 200
          { package := "p", timestamps := [100], downloads := [] }).timestamps := by
  decide

/-- Claim C3: merging a brand-new version with count C is claimed to yield a
zero backfill with C at the newly inserted slot.  On the code the count is
lost: the new version's array is created entirely zero-filled and the
observed count is never written, so merging version "5.14.0" with count
150000 into the empty series yields `[0]`, not `[150000]`. -/
theorem updateHistoricalData_drops_new_version_count :
    (updateHistoricalData [("5.14.0", 150000)] 100
        { package := "@mui/material", timestamps := [], downloads := [] }).downloads
      = [("5.14.0", [0])] ∧ (0 : Int) ≠ 150000 := by
  decide

/-- Claim C4: after every merge, each version's array is claimed to have the
same length as `timestamps`.  This fails for a zero count: `!newDownloads[v]`
is true for `0`, so an existing version observed with count 0 gets a splice
from BOTH loops — timestamps grow to length 2 while the version's array
grows to length 3. -/
theorem updateHistoricalData_breaks_alignment_on_zero_count :
    (updateHistoricalData [("v", 0)] 50
        { package := "p", timestamps := [100], downloads := [("v", [7])] }).timestamps.length = 2 ∧
    lookupA "v" (updateHistoricalData [("v", 0)] 50
        { package := "p", timestamps := [100], downloads := [("v", [7])] }).downloads
      = some [0, 0, 7] ∧ ([0, 0, 7] : List Int).length ≠ 2 := by
  decide

/-- Claim C5: merging the same `(timestamp, perVersionCounts)` twice yields
the same series as merging it once, and when the timestamp is already
present at the found position the call is a no-op.  Both hold: after an
actual insertion the skip condition holds at the new position, so the second
call returns the series unchanged. -/
theorem updateHistoricalData_idempotent (newDownloads : List (String × Int)) (timestamp : Int)
    (s : HistoricalData) :
    updateHistoricalData newDownloads timestamp (updateHistoricalData newDownloads timestamp s)
        = updateHistoricalData newDownloads timestamp s ∧
    (0 ≤ insertIndexOf timestamp s.timestamps ∧
        s.timestamps[(insertIndexOf timestamp s.timestamps).toNat]? = some timestamp →
      updateHistoricalData newDownloads timestamp s = s) := by
  constructor
  · by_cases h : 0 ≤ insertIndexOf timestamp s.timestamps ∧
        s.timestamps[(insertIndexOf timestamp s.timestamps).toNat]? = some timestamp
    · rw [updateHistoricalData_skip h, updateHistoricalData_skip h]
    · rw [updateHistoricalData_insert h]
      apply updateHistoricalData_skip
      exact skip_cond_splice timestamp s.timestamps
  · exact fun h => updateHistoricalData_skip h

theorem updateHistoricalData_idempotent_witness :
    updateHistoricalData [] 100 { package := "p", timestamps := [100], downloads := [] }
      = { package := "p", timestamps := [100], downloads := [] } :=
  (updateHistoricalData_idempotent [] 100
    { package := "p", timestamps := [100], downloads := [] }).2 (by decide)

/-- Claim C6: a version present in the series but absent from the
observation is claimed to get exactly one `0`, and a version present in the
observation with an existing array exactly its observed count.  The second
part fails for count 0: the version gets its count `0` spliced by the first
loop AND an extra `0` by the second loop (the `!newDownloads[version]`
truthiness slip), yielding two inserted entries `[0, 0, 42]` instead of one. -/
theorem updateHistoricalData_double_insert_on_zero_count :
    lookupA "1.0.0" (updateHistoricalData [("1.0.0", 0)] 500
        { package := "q", timestamps := [1000], downloads := [("1.0.0", [42])] }).downloads
      = some [0, 0, 42] ∧
    (updateHistoricalData [("1.0.0", 0)] 500
        { package := "q", timestamps := [1000], downloads := [("1.0.0", [42])] }).timestamps
      = [500, 1000] := by
  decide

/-- Claim C7: the per-package orchestrator processes week buckets in
ascending week-key order (the keys are sorted and pairwise distinct), scans
each week's dates in ascending order, merges exactly the first date whose
snapshot has download data for the package and discards the rest of the
week, and a week with no data contributes no merge: the whole run equals a
fold of the merge over the spec-side selection `specSelectedDates`. -/
theorem processPackage_first_available_day (env : Int → Option Snapshot)
    (packageName : String) (dates : List Int) (s : HistoricalData) :
    processPackageWeeks env packageName dates s
        = (specSelectedDates env packageName dates).foldl (mergeStep env packageName) s ∧
    List.Sorted (· ≤ ·)
        (List.insertionSort (· ≤ ·) ((batchDatesByWeek dates).map Prod.fst)) ∧
    (List.insertionSort (· ≤ ·) ((batchDatesByWeek dates).map Prod.fst)).Nodup ∧
    (∀ weekKey ds, lookupA weekKey (batchDatesByWeek dates) = some ds →
      List.Sorted (· ≤ ·) ds) ∧
    (∀ l : List Int, firstDateWithData env packageName l
      = l.find? (fun date => (extractDownloads env packageName date).isSome)) := by
  refine ⟨?_, ?_, ?_, ?_, ?_⟩
  · exact processWeeks_eq_foldl env packageName (batchDatesByWeek dates) _ s
  · exact List.sorted_insertionSort _ _
  · refine (List.Perm.nodup_iff (List.perm_insertionSort _ _)).mpr ?_
    rw [batchDatesByWeek, keys_map_sortBuckets]
    exact nodup_keys_groupLoop dates [] (by simp)
  · intro weekKey ds h
    rw [batchDatesByWeek, lookupA_map_value] at h
    obtain ⟨ds0, _, rfl⟩ := Option.map_eq_some'.mp h
    exact List.sorted_insertionSort _ ds0
  · exact firstDateWithData_eq_find env packageName

theorem processPackage_first_available_day_witness :
    List.Sorted (· ≤ ·) [dateMs 2024 1 7] :=
  (processPackage_first_available_day (fun _ => none) "p" [dateMs 2024 1 7]
    { package := "p", timestamps := [], downloads := [] }).2.2.2.1
    (daysFromCivil 2024 1 7) [dateMs 2024 1 7] (by decide)

/-- Claim C8: the week key is the UTC Sunday beginning the calendar week of
the input date — it equals the input's day with the UTC day-of-week
subtracted, it is itself a Sunday, and it lies at most 6 days before the
input; in particular, bucketing 2024-01-07 (Sunday), 2024-01-08 (Monday)
and 2024-01-14 (Sunday) yields exactly the week keys 2024-01-07 (holding the
first two dates) and 2024-01-14 (holding the third). -/
theorem getWeekKey_sunday_bucketing :
    (∀ ms : Int,
      getWeekKey ms = ms / DAY_MILLISECONDS - getUTCDay ms ∧
      getUTCDay (getWeekKey ms * DAY_MILLISECONDS) = 0 ∧
      getWeekKey ms ≤ ms / DAY_MILLISECONDS ∧
      ms / DAY_MILLISECONDS - getWeekKey ms < 7) ∧
    batchDatesByWeek [dateMs 2024 1 7, dateMs 2024 1 8, dateMs 2024 1 14] =
      [(daysFromCivil 2024 1 7, [dateMs 2024 1 7, dateMs 2024 1 8]),
       (daysFromCivil 2024 1 14, [dateMs 2024 1 14])] := by
  constructor
  · intro ms
    have hday : (DAY_MILLISECONDS : Int) ≠ 0 := by norm_num [DAY_MILLISECONDS]
    have h1 := getWeekKey_eq ms
    have hg : getUTCDay ms = (ms / DAY_MILLISECONDS + 4) % 7 := rfl
    refine ⟨h1, ?_, ?_, ?_⟩
    · rw [h1, getUTCDay, Int.mul_ediv_cancel _ hday, hg]
      omega
    · rw [h1, hg]
      omega
    · rw [h1, hg]
      omega
  · decide

/-- Claim C9: the batch runner records every package's outcome
independently — it produces one settled result per package, a package whose
processing fails is recorded as a failure entry (no exception escapes), the
summary counts satisfy succeeded + failed = total with
failed = total - succeeded by construction, and changing one package's
outcome cannot change any other package's result entry. -/
theorem main_isolates_package_failures (outcome : String → Except String Unit) :
    (mainResults outcome).length = PACKAGES.length ∧
    successfulCount outcome + failedCount outcome = PACKAGES.length ∧
    (∀ p e, p ∈ PACKAGES → outcome p = Except.error e →
      ({ pkg := p, success := false, error := some e } : PackageResult)
        ∈ mainResults outcome) ∧
    (∀ (outcome2 : String → Except String Unit) (p q : String),
      (∀ r, r ≠ p → outcome2 r = outcome r) → q ≠ p →
      runPackage outcome2 q = runPackage outcome q) := by
  refine ⟨by simp [mainResults], ?_, ?_, ?_⟩
  · have hle : successfulCount outcome ≤ PACKAGES.length := by
      calc successfulCount outcome ≤ (mainResults outcome).length :=
            List.countP_le_length _
        _ = PACKAGES.length := by simp [mainResults]
    rw [failedCount]
    omega
  · intro p e hp he
    have hrun : runPackage outcome p = { pkg := p, success := false, error := some e } := by
      rw [runPackage, he]
    rw [mainResults, ← hrun]
    exact List.mem_map_of_mem _ hp
  · intro outcome2 p q hagree hq
    rw [runPackage, runPackage, hagree q hq]

theorem main_isolates_package_failures_witness :
    ({ pkg := "react", success := false, error := some "parse failure" } : PackageResult)
      ∈ mainResults (fun _ => Except.error "parse failure") :=
  (main_isolates_package_failures (fun _ => Except.error "parse failure")).2.2.1 "react"
    "parse failure" (by decide) rfl

/-- Claim C10: every merge call is insert-only — the package name is
unchanged, the old timestamps form a sublist of the new ones (nothing
deleted or reordered among existing entries), and every version's old count
array is a sublist of its new array, with no version key ever removed. -/
theorem updateHistoricalData_insert_only (newDownloads : List (String × Int)) (timestamp : Int)
    (s : HistoricalData) :
    (updateHistoricalData newDownloads timestamp s).package = s.package ∧
    s.timestamps.Sublist (updateHistoricalData newDownloads timestamp s).timestamps ∧
    (∀ v a, lookupA v s.downloads = some a →
      ∃ a', lookupA v (updateHistoricalData newDownloads timestamp s).downloads = some a' ∧
        a.Sublist a') := by
  by_cases h : 0 ≤ insertIndexOf timestamp s.timestamps ∧
      s.timestamps[(insertIndexOf timestamp s.timestamps).toNat]? = some timestamp
  · rw [updateHistoricalData_skip h]
    exact ⟨rfl, List.Sublist.refl _, fun v a ha => ⟨a, ha, List.Sublist.refl a⟩⟩
  · rw [updateHistoricalData_insert h]
    refine ⟨rfl, sublist_splice _ _ _, fun v a ha => ?_⟩
    obtain ⟨b, hb, hab⟩ := addNewCounts_lookup _ _ newDownloads s.downloads v a ha
    rw [lookupA_zeroFillAbsent, hb, Option.map_some']
    exact ⟨_, rfl, hab.trans (sublist_zeroFillFun newDownloads _ v b)⟩

theorem updateHistoricalData_insert_only_witness :
    ∃ a', lookupA "5.14.0"
        (updateHistoricalData [("6.0.0", 3)] 200
          { package := "p", timestamps := [100], downloads := [("5.14.0", [7])] }).downloads
        = some a' ∧ ([7] : List Int).Sublist a' :=
  (updateHistoricalData_insert_only [("6.0.0", 3)] 200
    { package := "p", timestamps := [100], downloads := [("5.14.0", [7])] }).2.2 "5.14.0" [7]
    (by decide)

end NpmTracker
